import Mathlib

/-!
Verification of the retrieval core of StrongPromptAI/utilities.

Text is modelled as `List Char` (Python `str`).  The functions below are
shallow embeddings of the Python sources:

* `scripts/kb_core/chunking.py` : `chunk_text`, `chunk_by_sections`,
  `_split_sentences`, `chunk_transcript`
* `scripts/kb_core/search.py`   : the scoring formulas of `semantic_search`
  and `hybrid_search` and their call/effect order
* `scripts/kb_core/clustering.py` : `expand_by_cluster`
-/

set_option autoImplicit false

namespace KB

/-- ASCII model of Python's `\s` class and of the characters removed by
`str.strip()` (space, tab, newline, carriage return, vertical tab, form feed). -/
def isWS (c : Char) : Bool :=
  c == ' ' || c == '\t' || c == '\n' || c == '\r' || c == '\x0b' || c == '\x0c'

/-- `[A-Z]`. -/
def isUpperCh (c : Char) : Bool := 'A' ≤ c && c ≤ 'Z'

/-- `[a-z]`. -/
def isLowerCh (c : Char) : Bool := 'a' ≤ c && c ≤ 'z'

/-- `\d` restricted to ASCII. -/
def isDigitCh (c : Char) : Bool := '0' ≤ c && c ≤ '9'

/-- `[.!?]`, the sentence-ending characters of `_split_sentences`. -/
def sentEnd (c : Char) : Bool := c == '.' || c == '!' || c == '?'

/-- Python `str.strip()`: remove leading and trailing whitespace. -/
def pyStrip (l : List Char) : List Char :=
  (((l.dropWhile isWS).reverse).dropWhile isWS).reverse

/-- Python `text.split("\n\n")`: split on each non-overlapping occurrence of
two consecutive newlines, scanning left to right. -/
def splitNN : List Char → List (List Char)
  | [] => [[]]
  | '\n' :: '\n' :: rest => [] :: splitNN rest
  | c :: rest =>
    match splitNN rest with
    | [] => [[c]]
    | h :: t => (c :: h) :: t

/-- Python `text.split("\n")`. -/
def splitNL : List Char → List (List Char)
  | [] => [[]]
  | '\n' :: rest => [] :: splitNL rest
  | c :: rest =>
    match splitNL rest with
    | [] => [[c]]
    | h :: t => (c :: h) :: t

/-- Python `" ".join(parts)`. -/
def joinSpace : List (List Char) → List Char
  | [] => []
  | [s] => s
  | s :: rest => s ++ ' ' :: joinSpace rest

/-- Python `"\n".join(parts)`. -/
def joinNL : List (List Char) → List Char
  | [] => []
  | [s] => s
  | s :: rest => s ++ '\n' :: joinNL rest

/-- The running `current_size` accumulator of `chunk_transcript` counts
`len(sentence) + 1` for every accumulated sentence. -/
def accSize (g : List (List Char)) : ℕ := (g.map (fun s => s.length + 1)).sum

/-! ### `_split_sentences` (chunking.py)

`re.split(r'(?<=[.!?])\s+(?=[A-Z\n])', text)` followed by splitting each part
on `"\n"`, stripping, and dropping empties. -/

/-- Length of the regex match of `(?<=[.!?])\s+(?=[A-Z\n])` starting at the head
of `rest`, where `p` is the character immediately before `rest` (the lookbehind
position).  The greedy `\s+` first tries the maximal whitespace run `n`; the
lookahead then needs an `[A-Z]` right after the run (the character after a
maximal run cannot be `\n`).  On failure it backtracks to the longest shorter
run whose following character is a newline (a whitespace character inside the
run satisfies `[A-Z\n]` only if it is `\n`); at least one whitespace character
must be consumed. -/
def seMatchLen (p : Char) (rest : List Char) : Option ℕ :=
  if sentEnd p then
    let run := rest.takeWhile isWS
    let n := run.length
    if n = 0 then none
    else if (rest.drop n).headD 'a' |> isUpperCh then some n
    else
      match run.reverse.findIdx? (fun c => c == '\n') with
      | some j => if 1 ≤ n - 1 - j then some (n - 1 - j) else none
      | none => none
  else none

/-- One pass of the regex scanner: `prev` is the character before the current
position (a non-matching placeholder at the start of the text), and parts are
cut wherever `seMatchLen` finds a match, consuming the matched whitespace.
Fuel-driven so that the definition is structural; the last character of a
consumed match is whitespace, so `' '` is a faithful stand-in for the new
lookbehind character.  `scanSE` supplies enough fuel (each step consumes at
least one character). -/
def scanSEFuel : ℕ → Char → List Char → List (List Char)
  | 0, _, cs => [cs]
  | fuel + 1, prev, cs =>
    match cs with
    | [] => [[]]
    | c :: rest =>
      match seMatchLen prev cs with
      | some m => [] :: scanSEFuel fuel ' ' (cs.drop m)
      | none =>
        match scanSEFuel fuel c rest with
        | [] => [[c]]
        | h :: t => (c :: h) :: t

/-- `re.split(r'(?<=[.!?])\s+(?=[A-Z\n])', text)`. -/
def scanSE (cs : List Char) : List (List Char) := scanSEFuel (cs.length + 1) ' ' cs

/-- `_split_sentences` from chunking.py: regex split, then split each part on
newlines, strip, and keep the non-empty results. -/
def split_sentences (text : List Char) : List (List Char) :=
  (scanSE text).flatMap fun part =>
    ((splitNL part).map pyStrip).filter (fun s => !s.isEmpty)

/-! ### `chunk_transcript` (chunking.py) -/

/-- The inner `parse_turn` of `chunk_transcript`:
`re.match(r'^\[([^\]]+)\]\s*(.*)$', turn, re.DOTALL)`.  Returns
`(speaker?, body)`; on no match the whole turn is the body with no speaker.
The matched group 2 is stripped by the caller (`match.group(2).strip()`). -/
def parse_turn (turn : List Char) : Option (List Char) × List Char :=
  match turn with
  | '[' :: rest =>
    let name := rest.takeWhile (fun c => c != ']')
    let after := rest.drop name.length
    match after with
    | ']' :: tail =>
      if name.isEmpty then (none, turn)
      else (some name, pyStrip (tail.dropWhile isWS))
    | _ => (none, turn)
  | _ => (none, turn)

/-- `turns = [t.strip() for t in text.split("\n\n") if t.strip()]`. -/
def transcriptTurns (text : List Char) : List (List Char) :=
  ((splitNN text).map pyStrip).filter (fun t => !t.isEmpty)

/-- The flat `(speaker, sentence)` segment list built by `chunk_transcript`. -/
def transcriptSegments (text : List Char) : List (Option (List Char) × List Char) :=
  (transcriptTurns text).flatMap fun turn =>
    let p := parse_turn turn
    (split_sentences p.2).map fun s => (p.1, s)

/-- The sentence stream of the input, in order, with speaker tags stripped. -/
def transcriptSentences (text : List Char) : List (List Char) :=
  (transcriptSegments text).map Prod.snd

/-- `current_speakers.append(speaker)` happens only when the speaker is present. -/
def speakerList : Option (List Char) → List (List Char)
  | some s => [s]
  | none => []

/-- Accumulated state of one chunk: its sentences and its speaker occurrences. -/
abbrev ChunkGroup := List (List Char) × List (List Char)

/-- The greedy accumulation loop of `chunk_transcript`: flush when adding the
next sentence would exceed `max_chunk_size` and the accumulator already holds
at least `min_chunk_size` characters; the final partial chunk is flushed if
non-empty. -/
def chunkLoop (minS maxS : ℕ) :
    List (Option (List Char) × List Char) →
    List (List Char) → List (List Char) → ℕ → List ChunkGroup
  | [], curS, curSp, _ => if curS.isEmpty then [] else [(curS, curSp)]
  | (sp, sen) :: rest, curS, curSp, curSize =>
    if maxS < curSize + sen.length ∧ minS ≤ curSize then
      (curS, curSp) :: chunkLoop minS maxS rest [sen] (speakerList sp) (sen.length + 1)
    else
      chunkLoop minS maxS rest (curS ++ [sen]) (curSp ++ speakerList sp)
        (curSize + sen.length + 1)

/-- The chunk groups produced from a segment list. -/
def chunkGroups (minS maxS : ℕ)
    (segments : List (Option (List Char) × List Char)) : List ChunkGroup :=
  chunkLoop minS maxS segments [] [] 0

/-- A returned transcript chunk: `{"speaker": str|None, "text": str}`. -/
structure TChunk where
  speaker : Option (List Char)
  text : List Char
deriving DecidableEq

/-- Python `max(iterable, key=k)`: first element with maximal key (ties keep the
earlier element, since a later element replaces the best only when strictly
greater). -/
def pyMax (k : List Char → ℕ) : List (List Char) → Option (List Char)
  | [] => none
  | x :: xs => some (xs.foldl (fun b y => if k b < k y then y else b) x)

/-- `max(set(current_speakers), key=current_speakers.count) if current_speakers
else None`.  `setOrder` models the iteration order of the Python set
`set(current_speakers)`: some permutation of the distinct speakers, determined
by string hashing (hash-randomized across interpreter runs). -/
def primary_speaker (setOrder : List (List Char) → List (List Char))
    (speakers : List (List Char)) : Option (List Char) :=
  if speakers.isEmpty then none
  else pyMax (fun s => speakers.count s) (setOrder speakers)

/-- `chunk_transcript` from chunking.py, parameterized by the set iteration
order used in the primary-speaker computation. -/
def chunk_transcript (setOrder : List (List Char) → List (List Char))
    (minS maxS : ℕ) (text : List Char) : List TChunk :=
  let turns := transcriptTurns text
  if turns.isEmpty then
    if (pyStrip text).isEmpty then [] else [⟨none, pyStrip text⟩]
  else
    let segments := transcriptSegments text
    if segments.isEmpty then []
    else
      (chunkGroups minS maxS segments).map fun g =>
        ⟨primary_speaker setOrder g.2, joinSpace g.1⟩

/-- One possible set iteration order: first-seen (insertion) order. -/
def dedupOrd (l : List (List Char)) : List (List Char) := l.dedup

/-- Another possible set iteration order: the reverse of first-seen order. -/
def revOrd (l : List (List Char)) : List (List Char) := l.dedup.reverse

/-! ### `chunk_by_sections` (chunking.py) -/

/-- `headIs p l` holds when `l` starts with a character satisfying `p`. -/
def headIs (p : Char → Bool) (l : List Char) : Bool :=
  match l with
  | [] => false
  | c :: _ => p c

/-- `[A-Z\s]`. -/
def upperOrWS (c : Char) : Bool := isUpperCh c || isWS c

/-- `^#{1,4}\s+`: one to four leading `#` followed by whitespace.  The greedy
`#{1,4}` can only end at the end of the full leading `#` run (any earlier
position is followed by `#`, which is not whitespace). -/
def patMdHeader (s : List Char) : Bool :=
  let n := (s.takeWhile (fun c => c == '#')).length
  decide (1 ≤ n) && decide (n ≤ 4) && headIs isWS (s.drop n)

/-- `^\d+\.\s+[A-Z]`: digits, a period, whitespace, then a capital.  The greedy
`\d+` must take the whole digit run (a shorter run is followed by a digit, not
`.`), and the greedy `\s+` must take the whole whitespace run (a shorter run is
followed by whitespace, not `[A-Z]`). -/
def patNumbered (s : List Char) : Bool :=
  let n := (s.takeWhile isDigitCh).length
  if n = 0 then false
  else
    match s.drop n with
    | '.' :: rest =>
      let w := (rest.takeWhile isWS).length
      decide (1 ≤ w) && headIs isUpperCh (rest.drop w)
    | _ => false

/-- `^[a-z]\)\s+[A-Z]`. -/
def patLettered (s : List Char) : Bool :=
  match s with
  | c :: ')' :: rest =>
    isLowerCh c &&
      (let w := (rest.takeWhile isWS).length
       decide (1 ≤ w) && headIs isUpperCh (rest.drop w))
  | _ => false

/-- `^[A-Z][A-Z\s]+:$`: a capital, at least one more `[A-Z\s]` character, a
colon, end of line.  The `[A-Z\s]+` body must be the whole run (a `:` is not in
the class, so no backtracking position works) and must be followed by exactly
`":"`. -/
def patCapsColon (s : List Char) : Bool :=
  match s with
  | c :: rest =>
    let r := (rest.takeWhile upperOrWS).length
    isUpperCh c && decide (1 ≤ r) && rest.drop r == [':']
  | [] => false

/-- `^[A-Z][A-Z\s]+$`: a capital followed by at least one `[A-Z\s]` character
up to the end of the line. -/
def patCapsLine (s : List Char) : Bool :=
  match s with
  | c :: rest => isUpperCh c && !rest.isEmpty && rest.all upperOrWS
  | [] => false

/-- `is_section_start` from `chunk_by_sections`: the stripped line is non-empty
and matches one of the five section patterns. -/
def is_section_start (line : List Char) : Bool :=
  let s := pyStrip line
  !s.isEmpty &&
    (patMdHeader s || patNumbered s || patLettered s || patCapsColon s || patCapsLine s)

/-- `flush_chunk` from `chunk_by_sections`: join the accumulated lines, strip,
keep only if at least `min_chunk_size` characters, prepending the current
header when it is set and the chunk does not already start with it. -/
def flushChunk (minS : ℕ) (chunks : List (List Char))
    (cur : List (List Char)) (header : List Char) : List (List Char) :=
  if cur.isEmpty then chunks
  else
    let ct := pyStrip (joinNL cur)
    if minS ≤ ct.length then
      if !header.isEmpty && !(header.isPrefixOf ct) then
        chunks ++ [header ++ '\n' :: ct]
      else chunks ++ [ct]
    else chunks

/-- The line loop of `chunk_by_sections`: on a section start, flush and reset
the header and accumulator; otherwise accumulate the line.  Returns the chunk
list and the final accumulator and header for the last flush. -/
def sectionLoop (minS : ℕ) :
    List (List Char) → List (List Char) → List (List Char) → List Char →
    List (List Char) × List (List Char) × List Char
  | [], chunks, cur, header => (chunks, cur, header)
  | line :: rest, chunks, cur, header =>
    if is_section_start line then
      sectionLoop minS rest (flushChunk minS chunks cur header) [line] (pyStrip line)
    else
      sectionLoop minS rest chunks (cur ++ [line]) header

/-- `chunk_by_sections` from chunking.py: section-based chunking, then a
paragraph fallback when no section chunk survived, then the whole stripped
input as a single chunk when even that is empty. -/
def chunk_by_sections (minS : ℕ) (text : List Char) : List (List Char) :=
  let st := sectionLoop minS (splitNL text) [] [] []
  let chunks := flushChunk minS st.1 st.2.1 st.2.2
  let chunks :=
    if chunks.isEmpty then
      ((splitNN text).map pyStrip).filter fun p => !p.isEmpty && decide (minS ≤ p.length)
    else chunks
  if chunks.isEmpty && !(pyStrip text).isEmpty then [pyStrip text] else chunks

/-! ### `chunk_text` (chunking.py and mcp_servers/doc_chunker/server.py)

Both copies implement the same loop:
`while start < len(text): chunk = text[start:start+chunk_size];
 if chunk.strip(): chunks.append(chunk); start += chunk_size - overlap`
(the server writes `start = end - overlap` with `end = start + chunk_size`,
which is the same update).  The loop is modelled with explicit fuel, `none`
meaning the fuel ran out before the loop condition became false; the
subtraction `chunk_size - overlap` is the clamped ℕ subtraction, which like the
Python value gives a non-advancing index when `overlap ≥ chunk_size`. -/

def chunkTextLoop (size ov : ℕ) (text : List Char) : ℕ → ℕ → Option (List (List Char))
  | fuel, start =>
    if text.length ≤ start then some []
    else
      match fuel with
      | 0 => none
      | fuel + 1 =>
        let c := (text.drop start).take size
        match chunkTextLoop size ov text fuel (start + (size - ov)) with
        | none => none
        | some rest => some (if !(pyStrip c).isEmpty then c :: rest else rest)

/-- `chunk_text`: fixed-size chunking with overlap, given fuel for one
iteration per character plus one. -/
def chunk_text (size ov : ℕ) (text : List Char) : Option (List (List Char)) :=
  chunkTextLoop size ov text (text.length + 1) 0

/-! ### `expand_by_cluster` (clustering.py)

The cluster-assignment table `chunk_clusters` is modelled as a list of
`(chunk_id, cluster_id)` pairs; the joins against `call_chunks`/`calls`/`orgs`
only add display columns for chunks that exist, so a returned row is modelled
by its `(chunk_id, cluster_id)` pair.  The `ORDER BY` clauses only reorder
rows and are not modelled. -/

/-- `exclude = set(exclude_ids or chunk_ids)`: Python `or` falls back to the
seed list when `exclude_ids` is `None` **or** an empty list. -/
def expandExclude (chunk_ids : List ℕ) : Option (List ℕ) → List ℕ
  | none => chunk_ids
  | some l => if l.isEmpty then chunk_ids else l

/-- `SELECT DISTINCT cluster_id FROM chunk_clusters WHERE chunk_id IN chunk_ids`:
the distinct cluster IDs of the seed chunks. -/
def seedClusterIds (assigns : List (ℕ × ℕ)) (chunk_ids : List ℕ) : List ℕ :=
  ((assigns.filter fun a => decide (a.1 ∈ chunk_ids)).map Prod.snd).dedup

/-- `expand_by_cluster(chunk_ids, exclude_ids)` over an assignment table:
empty seed list short-circuits to `[]`; otherwise collect the distinct cluster
IDs of the seed chunks, return `[]` when there are none, and otherwise return
every assignment row in one of those clusters whose chunk ID is not excluded. -/
def expand_by_cluster (assigns : List (ℕ × ℕ)) (chunk_ids : List ℕ)
    (exclude_ids : Option (List ℕ)) : List (ℕ × ℕ) :=
  if chunk_ids.isEmpty then []
  else if (seedClusterIds assigns chunk_ids).isEmpty then []
  else
    assigns.filter fun a =>
      decide (a.2 ∈ seedClusterIds assigns chunk_ids) &&
        !decide (a.1 ∈ expandExclude chunk_ids exclude_ids)

/-! ### `semantic_search` and `hybrid_search` (search.py) -/

/-- The externally visible effects of a search call, in order. -/
inductive SearchEvent where
  | embedCall (query : List Char)
  | storeQuery
  | invalidInputError
deriving DecidableEq

/-- Effect trace of `semantic_search`: the body calls `get_embedding(query)`
first and then executes the store query; there is no input validation of any
kind on the query string (no `InvalidInput` error exists in the code). -/
def semantic_search_events (query : List Char) : List SearchEvent :=
  [.embedCall query, .storeQuery]

/-- Effect trace of `hybrid_search`: identical structure, `get_embedding(query)`
followed by the combined store query, with no validation. -/
def hybrid_search_events (query : List Char) : List SearchEvent :=
  [.embedCall query, .storeQuery]

/-- `recency_score = (1 - distance) * POWER(decay_rate, days_old)` computed by
the `semantic_search` SQL, over real numbers with `days_old` an integer number
of days. -/
def recency_score (distance decay : ℚ) (days_old : ℕ) : ℚ :=
  (1 - distance) * decay ^ days_old

/-- `semantic_score = (1 - distance) * 8.0` from the `hybrid_search` semantic CTE. -/
def semantic_score (distance : ℚ) : ℚ := (1 - distance) * 8

/-- `fts_score = ts_rank_cd(...) * 8.0` from the `hybrid_search` fts CTE, as a
function of the lexical rank. -/
def fts_score (rank : ℚ) : ℚ := rank * 8

/-- `combined_score = (semantic * w_s + fts * w_f) * POWER(decay, days_old)`. -/
def combined_score (sem fts sw fw decay : ℚ) (days_old : ℕ) : ℚ :=
  (sem * sw + fts * fw) * decay ^ days_old

/-- A row of the semantic candidate CTE (post `<=> < 0.8` filter). -/
structure SemRow where
  id : ℕ
  distance : ℚ
  days_old : ℕ

/-- A row of the full-text candidate CTE. -/
structure FtsRow where
  id : ℕ
  rank : ℚ
  days_old : ℕ

/-- A row of the final `hybrid_search` SELECT. -/
structure HybridRow where
  id : ℕ
  days_old : ℕ
  semantic_score : ℚ
  fts_score : ℚ
  combined_score : ℚ

/-- The `FULL OUTER JOIN ... ON s.id = f.id` with the `COALESCE`d score columns
of `hybrid_search`: every semantic row paired with its full-text row when one
exists (zero `fts_score` otherwise), plus every full-text row with no semantic
partner (zero `semantic_score`); `COALESCE(s.days_old, f.days_old)` takes the
semantic side when both are present. -/
def hybrid_search_rows (sems : List SemRow) (ftss : List FtsRow)
    (sw fw decay : ℚ) : List HybridRow :=
  (sems.map fun s =>
    match ftss.find? (fun f => decide (f.id = s.id)) with
    | some f =>
      ⟨s.id, s.days_old, semantic_score s.distance, fts_score f.rank,
        combined_score (semantic_score s.distance) (fts_score f.rank) sw fw decay s.days_old⟩
    | none =>
      ⟨s.id, s.days_old, semantic_score s.distance, 0,
        combined_score (semantic_score s.distance) 0 sw fw decay s.days_old⟩)
  ++ (ftss.filter fun f => !(sems.any fun s => decide (s.id = f.id))).map fun f =>
      ⟨f.id, f.days_old, 0, fts_score f.rank,
        combined_score 0 (fts_score f.rank) sw fw decay f.days_old⟩

/-! ## Supporting lemmas -/

theorem pyStrip_eq_nil_iff {l : List Char} : pyStrip l = [] ↔ ∀ c ∈ l, isWS c := by
  unfold pyStrip
  rw [List.reverse_eq_nil_iff, List.dropWhile_eq_nil_iff]
  constructor
  · intro h c hc
    have hsplit : c ∈ l.takeWhile isWS ++ l.dropWhile isWS := by
      rw [List.takeWhile_append_dropWhile]; exact hc
    rcases List.mem_append.mp hsplit with h1 | h2
    · exact List.mem_takeWhile_imp h1
    · exact h c (List.mem_reverse.mpr h2)
  · intro h c hc
    exact h c ((List.dropWhile_sublist isWS).subset (List.mem_reverse.mp hc))

theorem splitNN_ne_nil (l : List Char) : splitNN l ≠ [] := by
  induction l using splitNN.induct with
  | case1 => simp [splitNN]
  | case2 rest ih => simp [splitNN]
  | case3 c rest hne hnil ih => exact absurd hnil ih
  | case4 c rest hne h t heq ih =>
    rw [splitNN]
    · split <;> simp
    · exact hne

theorem splitNN_cons_eq (c : Char) (rest : List Char)
    (hne : ∀ rest₂ : List Char, c = '\n' → rest = '\n' :: rest₂ → False)
    (h : List Char) (t : List (List Char)) (heq : splitNN rest = h :: t) :
    splitNN (c :: rest) = (c :: h) :: t := by
  rw [splitNN]
  · split
    · rename_i hnil; rw [hnil] at heq; exact absurd heq (by simp)
    · rename_i h2 t2 heq2; rw [heq2] at heq
      injection heq with e1 e2; rw [e1, e2]
  · exact hne

theorem splitNN_all_ws (l : List Char)
    (hws : ∀ p ∈ splitNN l, ∀ c ∈ p, isWS c) : ∀ c ∈ l, isWS c := by
  induction l using splitNN.induct with
  | case1 => simp
  | case2 rest ih =>
    intro c hc
    have hrest : ∀ p ∈ splitNN rest, ∀ d ∈ p, isWS d := by
      intro p hp
      refine hws p ?_
      rw [splitNN]; exact List.mem_cons_of_mem _ hp
    rcases hc with _ | ⟨_, hc⟩
    · decide
    rcases hc with _ | ⟨_, hc⟩
    · decide
    exact ih hrest c hc
  | case3 c rest hne hnil ih => exact absurd hnil (splitNN_ne_nil rest)
  | case4 c rest hne h t heq ih =>
    have hcons := splitNN_cons_eq c rest hne h t heq
    intro d hd
    rcases hd with _ | ⟨_, hd⟩
    · exact hws (c :: h) (by rw [hcons]; exact List.mem_cons_self _ _) c
        (List.mem_cons_self _ _)
    · refine ih ?_ d hd
      intro p hp
      rw [heq] at hp
      rcases hp with _ | ⟨_, hp⟩
      · intro e he
        exact hws (c :: h) (by rw [hcons]; exact List.mem_cons_self _ _) e
          (List.mem_cons_of_mem _ he)
      · exact hws p (by rw [hcons]; exact List.mem_cons_of_mem _ hp)

/-- If every turn strips to nothing, the whole text strips to nothing. -/
theorem strip_nil_of_turns_nil (text : List Char)
    (h : transcriptTurns text = []) : pyStrip text = [] := by
  have hall : ∀ p ∈ splitNN text, pyStrip p = [] := by
    intro p hp
    have := List.filter_eq_nil_iff.mp h (pyStrip p)
      (List.mem_map.mpr ⟨p, hp, rfl⟩)
    simpa [List.isEmpty_iff] using this
  exact pyStrip_eq_nil_iff.mpr
    (splitNN_all_ws text fun p hp => pyStrip_eq_nil_iff.mp (hall p hp))

theorem accSize_nil : accSize [] = 0 := rfl

theorem accSize_single (s : List Char) : accSize [s] = s.length + 1 := by
  simp [accSize]

theorem accSize_append (l : List (List Char)) (s : List Char) :
    accSize (l ++ [s]) = accSize l + (s.length + 1) := by
  simp [accSize]

theorem accSize_eq_zero_iff (g : List (List Char)) : accSize g = 0 ↔ g = [] := by
  cases g with
  | nil => simp [accSize]
  | cons a t => simp [accSize]

theorem joinSpace_cons₂ (s b : List Char) (t : List (List Char)) :
    joinSpace (s :: b :: t) = s ++ ' ' :: joinSpace (b :: t) := rfl

theorem joinSpace_length (g : List (List Char)) (h : g ≠ []) :
    (joinSpace g).length + 1 = accSize g := by
  induction g with
  | nil => exact absurd rfl h
  | cons s rest ih =>
    cases rest with
    | nil => simp [joinSpace, accSize]
    | cons b t =>
      rw [joinSpace_cons₂]
      have := ih (by simp)
      simp only [List.length_append, List.length_cons, accSize, List.map_cons,
        List.sum_cons] at *
      omega

theorem joinSpace_append (a b : List (List Char)) (ha : a ≠ []) (hb : b ≠ []) :
    joinSpace (a ++ b) = joinSpace a ++ ' ' :: joinSpace b := by
  induction a with
  | nil => exact absurd rfl ha
  | cons s rest ih =>
    cases rest with
    | nil =>
      cases b with
      | nil => exact absurd rfl hb
      | cons c t => simp [joinSpace_cons₂, joinSpace]
    | cons b2 t2 =>
      have hr := ih (by simp)
      calc joinSpace ((s :: b2 :: t2) ++ b)
          = s ++ ' ' :: joinSpace ((b2 :: t2) ++ b) := rfl
        _ = s ++ ' ' :: (joinSpace (b2 :: t2) ++ ' ' :: joinSpace b) := by rw [hr]
        _ = (s ++ ' ' :: joinSpace (b2 :: t2)) ++ ' ' :: joinSpace b := by simp
        _ = joinSpace (s :: b2 :: t2) ++ ' ' :: joinSpace b := by rw [joinSpace_cons₂]

theorem flatten_ne_nil_of_head_ne_nil {α : Type} (g : List α) (L : List (List α))
    (hg : g ≠ []) : (g :: L).flatten ≠ [] := by
  simp only [List.flatten_cons]
  intro h
  exact hg (List.append_eq_nil.mp h).1

theorem joinSpace_map_flatten (L : List (List (List Char)))
    (h : ∀ g ∈ L, g ≠ []) : joinSpace (L.map joinSpace) = joinSpace L.flatten := by
  induction L with
  | nil => rfl
  | cons g rest ih =>
    cases rest with
    | nil => simp [joinSpace]
    | cons g2 t =>
      have hg : g ≠ [] := h g (List.mem_cons_self _ _)
      have hrest : ∀ x ∈ g2 :: t, x ≠ [] := fun x hx => h x (List.mem_cons_of_mem _ hx)
      have hflat : (g2 :: t).flatten ≠ [] :=
        flatten_ne_nil_of_head_ne_nil g2 t (hrest g2 (List.mem_cons_self _ _))
      calc joinSpace (List.map joinSpace (g :: g2 :: t))
          = joinSpace g ++ ' ' :: joinSpace (List.map joinSpace (g2 :: t)) := by
            rw [List.map_cons, List.map_cons, joinSpace_cons₂]
        _ = joinSpace g ++ ' ' :: joinSpace (g2 :: t).flatten := by rw [ih hrest]
        _ = joinSpace (g ++ (g2 :: t).flatten) := (joinSpace_append _ _ hg hflat).symm
        _ = joinSpace (g :: g2 :: t).flatten := by simp [List.flatten_cons]

theorem chunkLoop_ne_nil (minS maxS : ℕ)
    (segs : List (Option (List Char) × List Char)) :
    ∀ curS curSp curSize, curS ≠ [] →
      chunkLoop minS maxS segs curS curSp curSize ≠ [] := by
  induction segs with
  | nil =>
    intro curS curSp curSize h
    rw [chunkLoop]
    simp [List.isEmpty_iff, h]
  | cons seg rest ih =>
    intro curS curSp curSize h
    obtain ⟨sp, sen⟩ := seg
    rw [chunkLoop]
    split
    · simp
    · exact ih _ _ _ (by simp)

/-- The sentences of the produced groups, in order, are exactly the pending
accumulator followed by the sentences of the remaining segments: no sentence
is dropped, duplicated, or reordered. -/
theorem chunkLoop_flatten (minS maxS : ℕ)
    (segs : List (Option (List Char) × List Char)) :
    ∀ curS curSp curSize,
      ((chunkLoop minS maxS segs curS curSp curSize).map Prod.fst).flatten
        = curS ++ segs.map Prod.snd := by
  induction segs with
  | nil =>
    intro curS curSp curSize
    rw [chunkLoop]
    split
    · rename_i h; rw [List.isEmpty_iff.mp h]; rfl
    · simp
  | cons seg rest ih =>
    intro curS curSp curSize
    obtain ⟨sp, sen⟩ := seg
    rw [chunkLoop]
    split
    · rw [List.map_cons, List.flatten_cons, ih]
      simp
    · rw [ih]
      simp

/-- With a positive minimum size, every produced group is non-empty (a flush
fires only when the accumulator holds at least `minS ≥ 1` characters, and the
trailing group is only emitted when non-empty). -/
theorem chunkLoop_fst_ne_nil (minS maxS : ℕ) (hmin : 0 < minS)
    (segs : List (Option (List Char) × List Char)) :
    ∀ curS curSp curSize, curSize = accSize curS →
      ∀ g ∈ chunkLoop minS maxS segs curS curSp curSize, g.1 ≠ [] := by
  induction segs with
  | nil =>
    intro curS curSp curSize hsz g hg
    rw [chunkLoop] at hg
    split at hg
    · exact absurd hg (List.not_mem_nil g)
    · rename_i h
      rcases hg with _ | ⟨_, hg⟩
      · simpa [List.isEmpty_iff] using h
      · exact absurd hg (List.not_mem_nil g)
  | cons seg rest ih =>
    intro curS curSp curSize hsz g hg
    obtain ⟨sp, sen⟩ := seg
    rw [chunkLoop] at hg
    split at hg
    · rename_i hcond
      rcases hg with _ | ⟨_, hg⟩
      · intro he
        have he2 : curS = [] := he
        rw [hsz, he2, accSize_nil] at hcond
        omega
      · exact ih _ _ _ (accSize_single sen).symm g hg
    · exact ih _ _ _ (by rw [hsz, accSize_append]; omega) g hg

/-- The size discipline of every flushed (non-final) group: at least `minS`
accumulated characters, and at most `maxS + 1` accumulated characters unless
the group contains a sentence longer than `maxS - minS` (appended while the
accumulator was still below `minS`). -/
theorem chunkLoop_dropLast_bounds (minS maxS : ℕ) (hmm : minS ≤ maxS)
    (segs : List (Option (List Char) × List Char)) :
    ∀ curS curSp curSize, curSize = accSize curS →
      (accSize curS ≤ maxS + 1 ∨ ∃ s ∈ curS, maxS - minS < s.length) →
      ∀ g ∈ (chunkLoop minS maxS segs curS curSp curSize).dropLast,
        minS ≤ accSize g.1 ∧
          (accSize g.1 ≤ maxS + 1 ∨ ∃ s ∈ g.1, maxS - minS < s.length) := by
  induction segs with
  | nil =>
    intro curS curSp curSize hsz hinv g hg
    rw [chunkLoop] at hg
    split at hg
    · exact absurd hg (List.not_mem_nil g)
    · simp at hg
  | cons seg rest ih =>
    intro curS curSp curSize hsz hinv g hg
    obtain ⟨sp, sen⟩ := seg
    rw [chunkLoop] at hg
    split at hg
    · rename_i hcond
      have hL : chunkLoop minS maxS rest [sen] (speakerList sp) (sen.length + 1) ≠ [] :=
        chunkLoop_ne_nil minS maxS rest _ _ _ (by simp)
      obtain ⟨b, M, hbM⟩ := List.exists_cons_of_ne_nil hL
      rw [hbM, List.dropLast_cons₂] at hg
      rcases hg with _ | ⟨_, hg⟩
      · constructor
        · show minS ≤ accSize curS
          omega
        · show accSize curS ≤ maxS + 1 ∨ ∃ s ∈ curS, maxS - minS < s.length
          exact hinv
      · have hinv1 : accSize [sen] ≤ maxS + 1 ∨ ∃ s ∈ [sen], maxS - minS < s.length := by
          by_cases hlen : sen.length ≤ maxS
          · left; rw [accSize_single]; omega
          · right; exact ⟨sen, List.mem_singleton_self sen, by omega⟩
        have := ih [sen] (speakerList sp) (sen.length + 1) (accSize_single sen).symm hinv1
        rw [hbM] at this
        exact this g hg
    · rename_i hcond
      have hinv2 : accSize (curS ++ [sen]) ≤ maxS + 1 ∨
          ∃ s ∈ curS ++ [sen], maxS - minS < s.length := by
        rw [accSize_append]
        by_cases hfit : curSize + sen.length ≤ maxS
        · left; omega
        · have hlow : curSize < minS := by
            by_contra hge
            exact hcond ⟨by omega, by omega⟩
          right
          exact ⟨sen, List.mem_append_right _ (List.mem_singleton_self sen), by omega⟩
      exact ih _ _ _ (by rw [hsz, accSize_append]; omega) hinv2 g hg

/-- The texts of the returned transcript chunks are the space-joined sentence
groups (in the degenerate no-turn and no-segment branches both sides are
empty, since a text whose turns all strip to nothing strips to nothing). -/
theorem chunk_transcript_texts (ord : List (List Char) → List (List Char))
    (minS maxS : ℕ) (text : List Char) :
    (chunk_transcript ord minS maxS text).map TChunk.text
      = (chunkGroups minS maxS (transcriptSegments text)).map fun g => joinSpace g.1 := by
  unfold chunk_transcript
  by_cases ht : (transcriptTurns text).isEmpty
  · have htn : transcriptTurns text = [] := List.isEmpty_iff.mp ht
    have hstrip : pyStrip text = [] := strip_nil_of_turns_nil text htn
    have hseg : transcriptSegments text = [] := by
      unfold transcriptSegments; rw [htn]; rfl
    rw [if_pos ht, if_pos (by rw [hstrip]; rfl), hseg]
    rfl
  · rw [if_neg ht]
    by_cases hs : (transcriptSegments text).isEmpty
    · rw [if_pos hs, List.isEmpty_iff.mp hs]
      rfl
    · rw [if_neg hs, List.map_map]
      rfl

/-- C9: for every transcript text and positive minimum chunk size,
concatenating the texts of all returned chunks with single spaces reproduces
exactly the space-joined sentence stream of the input (speaker tags stripped):
no sentence is dropped, duplicated, or reordered, and nothing else appears. -/
theorem chunk_transcript_lossless (ord : List (List Char) → List (List Char))
    (minS maxS : ℕ) (text : List Char) (h : 0 < minS) :
    joinSpace ((chunk_transcript ord minS maxS text).map TChunk.text)
      = joinSpace (transcriptSentences text) := by
  rw [chunk_transcript_texts]
  have hfst : ∀ x ∈ (chunkGroups minS maxS (transcriptSegments text)).map Prod.fst,
      x ≠ [] := by
    intro x hx
    obtain ⟨g, hg, hgx⟩ := List.mem_map.mp hx
    rw [← hgx]
    exact chunkLoop_fst_ne_nil minS maxS h _ [] [] 0 rfl g hg
  calc joinSpace ((chunkGroups minS maxS (transcriptSegments text)).map fun g => joinSpace g.1)
      = joinSpace (((chunkGroups minS maxS (transcriptSegments text)).map Prod.fst).map
          joinSpace) := by rw [List.map_map]; rfl
    _ = joinSpace (((chunkGroups minS maxS (transcriptSegments text)).map Prod.fst).flatten) :=
        joinSpace_map_flatten _ hfst
    _ = joinSpace (transcriptSentences text) := by
        rw [chunkGroups, chunkLoop_flatten]
        rfl

/-- Witness for C9 at a concrete transcript. -/
theorem chunk_transcript_lossless_witness :
    0 < 1 ∧
      joinSpace ((chunk_transcript dedupOrd 1 5
          ("[A] Hi there. How are you?\n\n[B] Fine.".toList)).map TChunk.text)
        = joinSpace (transcriptSentences ("[A] Hi there. How are you?\n\n[B] Fine.".toList)) :=
  ⟨by decide, chunk_transcript_lossless dedupOrd 1 5 _ (by decide)⟩

/-- C1 (amended): for `min_chunk_size < max_chunk_size`, every chunk except
possibly the last has text length at least `min_chunk_size - 1` (the size
accumulator counts one joining space per sentence, so a flush can fire one
visible character early), and at most `max_chunk_size` unless the chunk
contains a single sentence longer than `max_chunk_size - min_chunk_size`
(a long sentence appended while the accumulator was still below the minimum
overshoots the maximum; sentences are never split). -/
theorem chunk_transcript_size_bounds (ord : List (List Char) → List (List Char))
    (minS maxS : ℕ) (text : List Char) (hmm : minS < maxS) :
    ((chunk_transcript ord minS maxS text).map TChunk.text
        = (chunkGroups minS maxS (transcriptSegments text)).map fun g => joinSpace g.1)
    ∧ ∀ g ∈ (chunkGroups minS maxS (transcriptSegments text)).dropLast,
        minS - 1 ≤ (joinSpace g.1).length ∧
          ((joinSpace g.1).length ≤ maxS ∨ ∃ s ∈ g.1, maxS - minS < s.length) := by
  refine ⟨chunk_transcript_texts ord minS maxS text, ?_⟩
  intro g hg
  have hb := chunkLoop_dropLast_bounds minS maxS (le_of_lt hmm) _ [] [] 0 rfl
    (Or.inl (by rw [accSize_nil]; omega)) g hg
  by_cases hne : g.1 = []
  · have hz : accSize g.1 = 0 := by rw [hne, accSize_nil]
    have h0 : (joinSpace g.1).length = 0 := by rw [hne]; rfl
    obtain ⟨h1, _⟩ := hb
    constructor
    · omega
    · left; omega
  · have hlen := joinSpace_length g.1 hne
    obtain ⟨h1, h2⟩ := hb
    constructor
    · omega
    · rcases h2 with hle | hbig
      · left; omega
      · right; exact hbig

/-- Witness for C1 (amended) at a concrete transcript and bounds. -/
theorem chunk_transcript_size_bounds_witness :
    2 < 5 ∧
      (((chunk_transcript dedupOrd 2 5 ("One two. Three four. Five.".toList)).map TChunk.text
          = (chunkGroups 2 5 (transcriptSegments ("One two. Three four. Five.".toList))).map
              fun g => joinSpace g.1)
        ∧ ∀ g ∈ (chunkGroups 2 5
              (transcriptSegments ("One two. Three four. Five.".toList))).dropLast,
            2 - 1 ≤ (joinSpace g.1).length ∧
              ((joinSpace g.1).length ≤ 5 ∨ ∃ s ∈ g.1, 5 - 2 < s.length)) :=
  ⟨by decide, chunk_transcript_size_bounds dedupOrd 2 5 _ (by decide)⟩

/-- C1 counterexample: with `min = 5 < max = 10`, the first (non-last) chunk of
`"abcd\nefghij"` is `"abcd"` (length `4 < min`, every sentence within `max`),
and the first chunk of `"a\nbbbbbbbbbb\ncccccc"` is `"a bbbbbbbbbb"` (length
`12 > max` although no single sentence exceeds `max = 10`): so the claimed
`min ≤ len ≤ max`-unless-a-sentence-exceeds-`max` bound fails on both sides. -/
theorem chunk_transcript_size_bounds_counterexample :
    (¬ ∀ g ∈ (chunkGroups 5 10 (transcriptSegments ("abcd\nefghij".toList))).dropLast,
          (5 ≤ (joinSpace g.1).length ∧ (joinSpace g.1).length ≤ 10) ∨
            ∃ s ∈ g.1, 10 < s.length) ∧
    (¬ ∀ g ∈ (chunkGroups 5 10 (transcriptSegments ("a\nbbbbbbbbbb\ncccccc".toList))).dropLast,
          (5 ≤ (joinSpace g.1).length ∧ (joinSpace g.1).length ≤ 10) ∨
            ∃ s ∈ g.1, 10 < s.length) ∧
    (chunk_transcript dedupOrd 5 10 ("abcd\nefghij".toList)).map TChunk.text
        = ["abcd".toList, "efghij".toList] ∧
    (chunk_transcript dedupOrd 5 10 ("a\nbbbbbbbbbb\ncccccc".toList)).map TChunk.text
        = ["a bbbbbbbbbb".toList, "cccccc".toList] := by decide

/-- C7 (code-bug evidence): on the transcript
`"[Alice] Hello there.\n\n[Bob] Good morning."` the single flushed chunk has
the speakers tied one occurrence each, `Alice` first-seen.  The reported
speaker is whatever element comes first in the iteration order of
`set(current_speakers)`: under the reversed order it is `Bob`, under
insertion order it is `Alice` — and the reversed order is a permutation of
the distinct speakers, i.e. an admissible set iteration order.  So the code
does not break ties by first-seen order; the choice is hash-order dependent. -/
theorem chunk_transcript_speaker_tie_order_dependent :
    ((chunk_transcript revOrd 500 700
        ("[Alice] Hello there.\n\n[Bob] Good morning.".toList)).map TChunk.speaker
      = [some ("Bob".toList)]) ∧
    ((chunk_transcript dedupOrd 500 700
        ("[Alice] Hello there.\n\n[Bob] Good morning.".toList)).map TChunk.speaker
      = [some ("Alice".toList)]) ∧
    (revOrd ["Alice".toList, "Bob".toList]).Perm
      (["Alice".toList, "Bob".toList].dedup) := by decide

/-- C6: the section chunker never returns zero chunks for an input with
non-empty stripped content: if neither the section pass nor the paragraph
fallback produced a chunk, the whole stripped input is returned as one chunk. -/
theorem chunk_by_sections_nonempty (minS : ℕ) (text : List Char)
    (h : pyStrip text ≠ []) : chunk_by_sections minS text ≠ [] := by
  have key : ∀ cs : List (List Char),
      (if (cs.isEmpty && !(pyStrip text).isEmpty) = true then [pyStrip text] else cs) ≠ [] := by
    intro cs
    split
    · exact List.cons_ne_nil _ _
    · rename_i hcond
      intro hnil
      rw [hnil] at hcond
      exact hcond (by simp [List.isEmpty_iff, h])
  intro hc
  unfold chunk_by_sections at hc
  exact key _ hc

/-- Witness for C6 at a concrete note. -/
theorem chunk_by_sections_nonempty_witness :
    pyStrip ("hello world".toList) ≠ [] ∧ chunk_by_sections 50 ("hello world".toList) ≠ [] :=
  ⟨by decide, chunk_by_sections_nonempty 50 _ (by decide)⟩

/-- C8: with an empty seed list, or when no seed chunk has any stored cluster
assignment, `expand_by_cluster` returns the empty list as a normal value. -/
theorem expand_by_cluster_no_assignment (assigns : List (ℕ × ℕ))
    (chunk_ids : List ℕ) (excl : Option (List ℕ))
    (h : chunk_ids = [] ∨ ∀ a ∈ assigns, a.1 ∉ chunk_ids) :
    expand_by_cluster assigns chunk_ids excl = [] := by
  unfold expand_by_cluster
  rcases h with h | h
  · rw [h]; rfl
  · by_cases hce : chunk_ids.isEmpty
    · rw [if_pos hce]
    · rw [if_neg hce]
      have hfilter : assigns.filter (fun a => decide (a.1 ∈ chunk_ids)) = [] :=
        List.filter_eq_nil_iff.mpr (fun a ha => by simpa using h a ha)
      rw [if_pos (by rw [seedClusterIds, hfilter]; rfl)]

/-- Witness for C8: a seed with no assignment yields the empty list. -/
theorem expand_by_cluster_no_assignment_witness :
    (∀ a ∈ [((3 : ℕ), (7 : ℕ))], a.1 ∉ [(1 : ℕ)]) ∧
      expand_by_cluster [(3, 7)] [1] none = [] :=
  ⟨by decide, expand_by_cluster_no_assignment [(3, 7)] [1] none (Or.inr (by decide))⟩

/-- C2 (amended): `expand_by_cluster` never returns a chunk whose ID is in the
seed list, provided every seed ID lands in the effective exclusion set — which
happens when `exclude_ids` is omitted or empty (then the seeds themselves are
excluded) or when the caller's `exclude_ids` contains every seed ID.  A
non-empty `exclude_ids` *replaces* the seed exclusion rather than extending it. -/
theorem expand_by_cluster_excludes_seeds (assigns : List (ℕ × ℕ))
    (chunk_ids : List ℕ) (excl : Option (List ℕ))
    (h : ∀ i ∈ chunk_ids, i ∈ expandExclude chunk_ids excl) :
    ∀ r ∈ expand_by_cluster assigns chunk_ids excl, r.1 ∉ chunk_ids := by
  intro r hr hmem
  unfold expand_by_cluster at hr
  split at hr
  · exact absurd hr (List.not_mem_nil r)
  · split at hr
    · exact absurd hr (List.not_mem_nil r)
    · have hpred := (List.mem_filter.mp hr).2
      have hnotex : r.1 ∉ expandExclude chunk_ids excl := by
        intro hin
        simp [hin] at hpred
      exact hnotex (h r.1 hmem)

/-- Witness for C2 (amended): with no caller exclusion list the seed chunk is
not returned even though it shares its cluster with another chunk. -/
theorem expand_by_cluster_excludes_seeds_witness :
    ((1 : ℕ), (7 : ℕ)) ∉ expand_by_cluster [(1, 7), (2, 7)] [1] none :=
  fun hmem =>
    expand_by_cluster_excludes_seeds [(1, 7), (2, 7)] [1] none (by decide)
      (1, 7) hmem (by decide)

/-- C2 counterexample: with seeds `[1]` in cluster `7` and a caller-provided
exclusion list `[5]` that does not contain the seed, the seed chunk `1` itself
is returned — so the claim fails for arbitrary provided exclusion lists. -/
theorem expand_by_cluster_excludes_seeds_counterexample :
    ((1 : ℕ), (7 : ℕ)) ∈ expand_by_cluster [(1, 7), (2, 7)] [1] (some [5]) ∧
      (1 : ℕ) ∈ [(1 : ℕ)] := by decide

/-- C3 counterexample: on the empty query both search functions issue the
embedding call as their first action and never raise any `InvalidInput`
error (no validation code exists on their paths). -/
theorem search_rejects_empty_query_counterexample :
    semantic_search_events [] = [.embedCall [], .storeQuery] ∧
    SearchEvent.invalidInputError ∉ semantic_search_events [] ∧
    hybrid_search_events [] = [.embedCall [], .storeQuery] ∧
    SearchEvent.invalidInputError ∉ hybrid_search_events [] := by decide

/-- C3 (amended): `semantic_search` and `hybrid_search` perform no query
validation at all: for every query string — empty or not — the first effect is
the embedding call and no `InvalidInput` error is ever raised. -/
theorem search_never_validates_query (q : List Char) :
    (semantic_search_events q).head? = some (.embedCall q) ∧
    SearchEvent.invalidInputError ∉ semantic_search_events q ∧
    (hybrid_search_events q).head? = some (.embedCall q) ∧
    SearchEvent.invalidInputError ∉ hybrid_search_events q := by
  refine ⟨rfl, ?_, rfl, ?_⟩ <;> simp [semantic_search_events, hybrid_search_events]

/-- C4 counterexample: at `distance = 2` (admissible for cosine distance),
`recency_score` *increases* with age: `(1-2)·(1/2)^1 = -1/2 > -1 = (1-2)·(1/2)^0`,
so strict decrease in `days_old` fails on the claimed domain `[0, 2]`. -/
theorem recency_score_monotone_counterexample :
    ¬ ∀ distance : ℚ, 0 ≤ distance → distance ≤ 2 →
        ∀ decay : ℚ, 0 < decay → decay < 1 →
          ∀ d1 d2 : ℕ, d1 < d2 →
            recency_score distance decay d2 < recency_score distance decay d1 := by
  intro hall
  have := hall 2 (by norm_num) (by norm_num) (1/2) (by norm_num) (by norm_num)
    0 1 (by norm_num)
  norm_num [recency_score] at this

/-- C4 (amended): for fixed `distance ∈ [0, 1)` and `decay ∈ (0, 1)`,
`recency_score` is strictly decreasing in `days_old`; and for every fixed
`days_old` and `decay ∈ (0, 1)` it is strictly decreasing in `distance`
(this second part needs no restriction on the distances). -/
theorem recency_score_strict_monotone :
    (∀ (distance decay : ℚ) (d1 d2 : ℕ), 0 ≤ distance → distance < 1 →
        0 < decay → decay < 1 → d1 < d2 →
        recency_score distance decay d2 < recency_score distance decay d1) ∧
    (∀ (dist1 dist2 decay : ℚ) (days : ℕ), dist1 < dist2 → 0 < decay → decay < 1 →
        recency_score dist2 decay days < recency_score dist1 decay days) := by
  constructor
  · intro distance decay d1 d2 h0 h1 hd0 hd1 hlt
    unfold recency_score
    have hpow : decay ^ d2 < decay ^ d1 := pow_lt_pow_right_of_lt_one₀ hd0 hd1 hlt
    have hpos : 0 < 1 - distance := by linarith
    exact mul_lt_mul_of_pos_left hpow hpos
  · intro dist1 dist2 decay days hlt hd0 hd1
    unfold recency_score
    have hpos : (0 : ℚ) < decay ^ days := pow_pos hd0 days
    have hsub : 1 - dist2 < 1 - dist1 := by linarith
    exact mul_lt_mul_of_pos_right hsub hpos

/-- Witness for C4 (amended) at concrete scores. -/
theorem recency_score_strict_monotone_witness :
    ((0 : ℚ) ≤ 1 / 2 ∧ (1 / 2 : ℚ) < 1 ∧ (0 : ℚ) < 1 / 2 ∧ (0 : ℕ) < 1) ∧
    recency_score (1 / 2) (1 / 2) 1 < recency_score (1 / 2) (1 / 2) 0 ∧
    recency_score (3 / 4) (1 / 2) 3 < recency_score (1 / 4) (1 / 2) 3 :=
  ⟨⟨by norm_num, by norm_num, by norm_num, by norm_num⟩,
    recency_score_strict_monotone.1 (1 / 2) (1 / 2) 0 1 (by norm_num) (by norm_num)
      (by norm_num) (by norm_num) (by norm_num),
    recency_score_strict_monotone.2 (1 / 4) (3 / 4) (1 / 2) 3 (by norm_num)
      (by norm_num) (by norm_num)⟩

theorem chunkTextLoop_some (size ov : ℕ) (text : List Char) :
    ∀ fuel start, text.length ≤ start + fuel * (size - ov) →
      ∃ cs, chunkTextLoop size ov text fuel start = some cs := by
  intro fuel
  induction fuel with
  | zero =>
    intro start h
    rw [chunkTextLoop, if_pos (by omega)]
    exact ⟨[], rfl⟩
  | succ n ih =>
    intro start h
    rw [chunkTextLoop]
    by_cases hs : text.length ≤ start
    · rw [if_pos hs]; exact ⟨[], rfl⟩
    · rw [if_neg hs]
      have hrec : text.length ≤ (start + (size - ov)) + n * (size - ov) := by
        rw [Nat.succ_mul] at h
        generalize n * (size - ov) = t at h ⊢
        omega
      obtain ⟨cs, hcs⟩ := ih (start + (size - ov)) hrec
      rw [hcs]
      exact ⟨_, rfl⟩

theorem chunkTextLoop_len (size ov : ℕ) (text : List Char) :
    ∀ fuel start cs, chunkTextLoop size ov text fuel start = some cs →
      ∀ c ∈ cs, c.length ≤ size := by
  intro fuel
  induction fuel with
  | zero =>
    intro start cs hcs c hc
    rw [chunkTextLoop] at hcs
    split at hcs
    · cases hcs; exact absurd hc (List.not_mem_nil c)
    · exact absurd hcs (by simp)
  | succ n ih =>
    intro start cs hcs c hc
    rw [chunkTextLoop] at hcs
    split at hcs
    · cases hcs; exact absurd hc (List.not_mem_nil c)
    · revert hcs
      cases hrec : chunkTextLoop size ov text n (start + (size - ov)) with
      | none => intro hcs; exact absurd hcs (by simp)
      | some rest =>
        intro hcs
        have hcs2 : (if !(pyStrip ((text.drop start).take size)).isEmpty
            then (text.drop start).take size :: rest else rest) = cs := by
          simpa using hcs
        rw [← hcs2] at hc
        have hmem : c = (text.drop start).take size ∨ c ∈ rest := by
          split at hc
          · rcases hc with _ | ⟨_, hc⟩
            · exact Or.inl rfl
            · exact Or.inr hc
          · exact Or.inr hc
        rcases hmem with rfl | hmem
        · exact List.length_take_le _ _
        · exact ih _ rest hrec c hmem

theorem chunkTextLoop_stuck (size ov : ℕ) (hov : size ≤ ov) (text : List Char) :
    ∀ fuel start, start < text.length →
      chunkTextLoop size ov text fuel start = none := by
  intro fuel
  induction fuel with
  | zero =>
    intro start h
    rw [chunkTextLoop, if_neg (by omega)]
  | succ n ih =>
    intro start h
    rw [chunkTextLoop, if_neg (by omega)]
    have hz : size - ov = 0 := Nat.sub_eq_zero_of_le hov
    rw [hz, Nat.add_zero, ih start h]

/-- C10: the fixed-size chunker terminates whenever `overlap < chunk_size`
(within one iteration per input character) and then every returned chunk has
at most `chunk_size` characters; when `overlap ≥ chunk_size` the start index
never advances and the loop never terminates on a non-empty input. -/
theorem chunk_text_terminates (size ov : ℕ) (text : List Char) :
    (ov < size →
      ∃ cs, chunk_text size ov text = some cs ∧ ∀ c ∈ cs, c.length ≤ size) ∧
    (size ≤ ov → text ≠ [] → chunk_text size ov text = none) := by
  constructor
  · intro hov
    have hfuel : text.length ≤ 0 + (text.length + 1) * (size - ov) := by
      have h1 : 1 ≤ size - ov := by omega
      calc text.length ≤ (text.length + 1) * 1 := by omega
        _ ≤ (text.length + 1) * (size - ov) := Nat.mul_le_mul_left _ h1
        _ = 0 + (text.length + 1) * (size - ov) := by omega
    obtain ⟨cs, hcs⟩ := chunkTextLoop_some size ov text (text.length + 1) 0 hfuel
    exact ⟨cs, hcs, chunkTextLoop_len size ov text _ 0 cs hcs⟩
  · intro hov hne
    exact chunkTextLoop_stuck size ov hov text _ 0
      (by cases text with | nil => exact absurd rfl hne | cons a t => simp)

/-- Witness for C10: a concrete terminating run with bounded chunks, and a
concrete non-advancing configuration. -/
theorem chunk_text_terminates_witness :
    (2 < 5 ∧
      ∃ cs, chunk_text 5 2 ("abcdefghij".toList) = some cs ∧ ∀ c ∈ cs, c.length ≤ 5) ∧
    (3 ≤ 3 ∧ "abcdef".toList ≠ [] ∧ chunk_text 3 3 ("abcdef".toList) = none) :=
  ⟨⟨by decide, (chunk_text_terminates 5 2 _).1 (by decide)⟩,
    ⟨by decide, by decide, (chunk_text_terminates 3 3 _).2 (by decide) (by decide)⟩⟩

/-- When the full-text candidate IDs are distinct, `find?` on an ID locates
exactly the member row carrying that ID. -/
theorem find?_fts_id (ftss : List FtsRow) (f : FtsRow) (i : ℕ)
    (hnd : (ftss.map FtsRow.id).Nodup) (hf : f ∈ ftss) (hid : f.id = i) :
    ftss.find? (fun x => decide (x.id = i)) = some f := by
  induction ftss with
  | nil => exact absurd hf (List.not_mem_nil f)
  | cons g rest ih =>
    rw [List.map_cons, List.nodup_cons] at hnd
    by_cases hg : g.id = i
    · rw [List.find?_cons_of_pos _ (by simpa using hg)]
      rcases List.mem_cons.mp hf with rfl | hf2
      · rfl
      · exact absurd (List.mem_map.mpr ⟨f, hf2, by rw [hid, ← hg]⟩) hnd.1
    · rw [List.find?_cons_of_neg _ (by simpa using hg)]
      rcases List.mem_cons.mp hf with rfl | hf2
      · exact absurd hid hg
      · exact ih hnd.2 hf2

/-- C5: in the hybrid join, a chunk present in both candidate sets gets
`combined_score = (semantic_score * semantic_weight + fts_score * fts_weight)
 * decay ^ days_old` with `semantic_score = (1 - distance) * 8` and
`fts_score = rank * 8`; a chunk present in exactly one candidate set gets a
zero score for the missing component in the same formula. -/
theorem hybrid_combined_score (sems : List SemRow) (ftss : List FtsRow)
    (sw fw decay : ℚ) (hnd : (ftss.map FtsRow.id).Nodup) :
    (∀ s ∈ sems, ∀ f ∈ ftss, f.id = s.id →
        ∃ h ∈ hybrid_search_rows sems ftss sw fw decay,
          h.id = s.id ∧ h.days_old = s.days_old ∧
          h.semantic_score = semantic_score s.distance ∧
          h.fts_score = fts_score f.rank ∧
          h.combined_score
            = (semantic_score s.distance * sw + fts_score f.rank * fw)
                * decay ^ s.days_old) ∧
    (∀ s ∈ sems, (∀ f ∈ ftss, f.id ≠ s.id) →
        ∃ h ∈ hybrid_search_rows sems ftss sw fw decay,
          h.id = s.id ∧ h.days_old = s.days_old ∧
          h.semantic_score = semantic_score s.distance ∧ h.fts_score = 0 ∧
          h.combined_score
            = (semantic_score s.distance * sw + 0 * fw) * decay ^ s.days_old) ∧
    (∀ f ∈ ftss, (∀ s ∈ sems, s.id ≠ f.id) →
        ∃ h ∈ hybrid_search_rows sems ftss sw fw decay,
          h.id = f.id ∧ h.days_old = f.days_old ∧
          h.semantic_score = 0 ∧ h.fts_score = fts_score f.rank ∧
          h.combined_score
            = (0 * sw + fts_score f.rank * fw) * decay ^ f.days_old) := by
  refine ⟨?_, ?_, ?_⟩
  · intro s hs f hfm hid
    have hfind : ftss.find? (fun x => decide (x.id = s.id)) = some f :=
      find?_fts_id ftss f s.id hnd hfm hid
    refine ⟨⟨s.id, s.days_old, semantic_score s.distance, fts_score f.rank,
      combined_score (semantic_score s.distance) (fts_score f.rank) sw fw decay
        s.days_old⟩, ?_, rfl, rfl, rfl, rfl, by rfl⟩
    unfold hybrid_search_rows
    apply List.mem_append_left
    refine List.mem_map.mpr ⟨s, hs, ?_⟩
    rw [hfind]
  · intro s hs hnone
    have hfind : ftss.find? (fun x => decide (x.id = s.id)) = none :=
      List.find?_eq_none.mpr (fun x hx => by simpa using hnone x hx)
    refine ⟨⟨s.id, s.days_old, semantic_score s.distance, 0,
      combined_score (semantic_score s.distance) 0 sw fw decay s.days_old⟩,
      ?_, rfl, rfl, rfl, rfl, by rfl⟩
    unfold hybrid_search_rows
    apply List.mem_append_left
    refine List.mem_map.mpr ⟨s, hs, ?_⟩
    rw [hfind]
  · intro f hfm hnone
    have hany : (sems.any fun s => decide (s.id = f.id)) = false := by
      rw [List.any_eq_false]
      intro s hsm
      simpa using hnone s hsm
    refine ⟨⟨f.id, f.days_old, 0, fts_score f.rank,
      combined_score 0 (fts_score f.rank) sw fw decay f.days_old⟩,
      ?_, rfl, rfl, rfl, rfl, by rfl⟩
    unfold hybrid_search_rows
    apply List.mem_append_right
    refine List.mem_map.mpr ⟨f, ?_, rfl⟩
    exact List.mem_filter.mpr ⟨hfm, by rw [hany]; rfl⟩

/-- Witness for C5 on a concrete pair of candidate sets: chunk `1` is in both
sets, chunk `2` only semantic, chunk `9` only lexical. -/
theorem hybrid_combined_score_witness :
    ((([⟨1, 1/8, 3⟩, ⟨9, 1, 0⟩] : List FtsRow).map FtsRow.id).Nodup) ∧
    (∃ h ∈ hybrid_search_rows [⟨1, 1/4, 3⟩, ⟨2, 1/2, 5⟩] [⟨1, 1/8, 3⟩, ⟨9, 1, 0⟩]
        (7/10) (3/10) (19/20),
      h.id = 1 ∧ h.days_old = 3 ∧
      h.semantic_score = semantic_score (1/4) ∧ h.fts_score = fts_score (1/8) ∧
      h.combined_score
        = (semantic_score (1/4) * (7/10) + fts_score (1/8) * (3/10)) * (19/20) ^ 3) ∧
    (∃ h ∈ hybrid_search_rows [⟨1, 1/4, 3⟩, ⟨2, 1/2, 5⟩] [⟨1, 1/8, 3⟩, ⟨9, 1, 0⟩]
        (7/10) (3/10) (19/20),
      h.id = 2 ∧ h.days_old = 5 ∧
      h.semantic_score = semantic_score (1/2) ∧ h.fts_score = 0 ∧
      h.combined_score = (semantic_score (1/2) * (7/10) + 0 * (3/10)) * (19/20) ^ 5) ∧
    (∃ h ∈ hybrid_search_rows [⟨1, 1/4, 3⟩, ⟨2, 1/2, 5⟩] [⟨1, 1/8, 3⟩, ⟨9, 1, 0⟩]
        (7/10) (3/10) (19/20),
      h.id = 9 ∧ h.days_old = 0 ∧
      h.semantic_score = 0 ∧ h.fts_score = fts_score 1 ∧
      h.combined_score = (0 * (7/10) + fts_score 1 * (3/10)) * (19/20) ^ 0) := by
  have hnd : (([⟨1, 1/8, 3⟩, ⟨9, 1, 0⟩] : List FtsRow).map FtsRow.id).Nodup := by
    simp only [List.map_cons, List.map_nil]
    decide
  have hmain := hybrid_combined_score [⟨1, 1/4, 3⟩, ⟨2, 1/2, 5⟩]
    [⟨1, 1/8, 3⟩, ⟨9, 1, 0⟩] (7/10) (3/10) (19/20) hnd
  refine ⟨hnd, ?_, ?_, ?_⟩
  · exact hmain.1 ⟨1, 1/4, 3⟩ (List.mem_cons_self _ _) ⟨1, 1/8, 3⟩
      (List.mem_cons_self _ _) rfl
  · refine hmain.2.1 ⟨2, 1/2, 5⟩ (List.mem_cons_of_mem _ (List.mem_cons_self _ _)) ?_
    intro f hfm
    simp only [List.mem_cons, List.not_mem_nil, or_false] at hfm
    rcases hfm with rfl | rfl <;> decide
  · refine hmain.2.2 ⟨9, 1, 0⟩ (List.mem_cons_of_mem _ (List.mem_cons_self _ _)) ?_
    intro s hsm
    simp only [List.mem_cons, List.not_mem_nil, or_false] at hsm
    rcases hsm with rfl | rfl <;> decide

end KB


